import Mathlib

/-!
Verification of the conventional-commit grammar declared in `src/main.rs`
(rust_sitter grammar "commit").

The grammar is a declarative description attached to plain record types:

* `Language` — sequence: `Type`, one whitespace leaf `\s`, a description
  leaf `.+`, an optional `Footer`, an optional `Body` (in that field order).
* `Type` — a keyword leaf (fixed alternation of eleven keywords), an
  optional scope leaf `\((.+)\)` stored verbatim with its parentheses,
  then the literal `:` (consumed, not stored).
* `Body` — a prefix leaf `\n|\n\n` (longest match), then an optional
  value leaf `.+`.
* `FooterLine` — a tag leaf `.+`, the literal `:`, one whitespace leaf
  `\s`, a value leaf `.+`; the tag/value split happens at the first
  occurrence of a colon followed by a whitespace character.
* `Footer` — a prefix leaf `\n\n`, then a non-empty repeat of
  `FooterLine` delimited by single `\n`.

The embedding below parses a `List Char` left to right.  Following the
documented semantics of the grammar: the optional trailing blocks are
attempted in declared field order (`Footer` first, then `Body`), an
optional block that fails to match is abandoned without consuming input,
and the whole input must be consumed for the parse to succeed.  The `.+`
leaves match greedily up to (not including) a newline and require at
least one character; the scope leaf captures a parenthesized span with
non-greedy content, kept verbatim including both parentheses.
-/

namespace Commit

/-- `Type` of the grammar (the name `Type` is reserved in Lean): the
commit classification.  `value` is the matched keyword; `scope` is the
raw matched parenthesized span, kept verbatim.  The `:` separator leaf
carries no data and is not stored. -/
structure Type' where
  value : List Char
  scope : Option (List Char)
  deriving DecidableEq

/-- `Body` of the grammar: the newline prefix leaf carries no data; the
value leaf `.+` is optional. -/
structure Body where
  value : Option (List Char)
  deriving DecidableEq

/-- `FooterLine` of the grammar: one `tag: value` entry.  The `:` and the
single whitespace leaf carry no data. -/
structure FooterLine where
  tag : List Char
  value : List Char
  deriving DecidableEq

/-- `Footer` of the grammar: a non-empty sequence of footer lines. -/
structure Footer where
  lines : List FooterLine
  deriving DecidableEq

/-- `Language` of the grammar: the root record.  The whitespace leaf
between `:` and the description carries no data and is not stored. -/
structure Language where
  type_ : Type'
  description : List Char
  footer : Option Footer
  body : Option Body
  deriving DecidableEq

/-- The eleven type keywords, in the order of the source alternation
`feat|fix|docs|style|refactor|perf|test|build|ci|chore|revert`. -/
def keywords : List (List Char) :=
  [String.toList "feat", String.toList "fix", String.toList "docs",
   String.toList "style", String.toList "refactor", String.toList "perf",
   String.toList "test", String.toList "build", String.toList "ci",
   String.toList "chore", String.toList "revert"]

/-- Match the keyword alternation at the start of the input: the first
keyword of the alternation that starts the input is taken, and the rest
of the input is returned.  (The eleven keywords are pairwise
non-prefixing, so at most one can match.) -/
def matchKeyword (s : List Char) : Option (List Char × List Char) :=
  (keywords.find? (fun k => k.isPrefixOf s)).map (fun k => (k, s.drop k.length))

/-- Scan the scope content up to the first closing parenthesis
(non-greedy content of `\((.+)\)`).  `.` does not match a newline, so a
newline before the closing parenthesis makes the scan fail. -/
def scanScopeContent : List Char → Option (List Char × List Char)
  | [] => none
  | c :: rest =>
    if c = ')' then some ([], rest)
    else if c = '\n' then none
    else
      match scanScopeContent rest with
      | some (a, b) => some (c :: a, b)
      | none => none

/-- Match the scope leaf `\((.+)\)`: an opening parenthesis, at least one
character of content, a closing parenthesis.  The stored text is the raw
matched span including both parentheses. -/
def matchScope : List Char → Option (List Char × List Char)
  | [] => none
  | c :: rest =>
    if c = '(' then
      match scanScopeContent rest with
      | some (content, after) =>
        if content = [] then none
        else some ('(' :: (content ++ [')']), after)
      | none => none
    else none

/-- Match a `.+` leaf: one or more characters, greedily up to (but not
including) a newline. -/
def matchLine : List Char → Option (List Char × List Char)
  | [] => none
  | c :: rest =>
    if c = '\n' then none
    else
      match matchLine rest with
      | some (d, r) => some (c :: d, r)
      | none => some ([c], rest)

/-- Split a footer line at the first occurrence of `:` followed by a
whitespace character (the `":"` literal then the `\s` leaf); returns the
text before the colon and the text after the whitespace character. -/
def splitTagValue : List Char → Option (List Char × List Char)
  | [] => none
  | c :: rest =>
    match rest with
    | [] => none
    | c₂ :: rest₂ =>
      if c = ':' ∧ c₂.isWhitespace then some ([], rest₂)
      else
        match splitTagValue rest with
        | none => none
        | some (t, v) => some (c :: t, v)

/-- Does a line have the `tag: value` shape accepted by `FooterLine`
(a colon-whitespace split with non-empty tag and value)? -/
def isTagValueLine (line : List Char) : Bool :=
  match splitTagValue line with
  | some (t, v) => !t.isEmpty && !v.isEmpty
  | none => false

/-- Parse one `FooterLine`: take the current line greedily, then split it
at the first colon-whitespace occurrence; the tag leaf `.+` and the value
leaf `.+` each require at least one character. -/
def parseFooterLine (s : List Char) : Option (FooterLine × List Char) :=
  match matchLine s with
  | none => none
  | some (line, rest) =>
    match splitTagValue line with
    | none => none
    | some (t, v) =>
      if t = [] then none
      else if v = [] then none
      else some (⟨t, v⟩, rest)

/-- After one parsed footer line, continue the `\n`-delimited repeat:
if a single newline and a further footer line follow (through `recur`,
the rest of the repeat), extend the collected lines; otherwise stop
without consuming the delimiter. -/
def footerCont (recur : List Char → Option (List FooterLine × List Char))
    (l : FooterLine) (rest : List Char) :
    Option (List FooterLine × List Char) :=
  match rest with
  | [] => some ([l], rest)
  | c :: rest₂ =>
    if c = '\n' then
      match recur rest₂ with
      | some (ls, r) => some (l :: ls, r)
      | none => some ([l], rest)
    else some ([l], rest)

/-- Parse the non-empty `\n`-delimited repeat of `FooterLine`, fueled to
make the recursion structural (each iteration consumes at least one
character, so `s.length + 1` fuel always suffices). -/
def footerLinesFuel : Nat → List Char → Option (List FooterLine × List Char)
  | 0, _ => none
  | fuel + 1, s =>
    match parseFooterLine s with
    | none => none
    | some (l, rest) => footerCont (footerLinesFuel fuel) l rest

/-- Parse a `Footer`: the `\n\n` prefix leaf, then one or more footer
lines delimited by single newlines. -/
def parseFooter (s : List Char) : Option (Footer × List Char) :=
  match s with
  | c₁ :: c₂ :: rest =>
    if c₁ = '\n' ∧ c₂ = '\n' then
      match footerLinesFuel (rest.length + 1) rest with
      | some (ls, r) => some (⟨ls⟩, r)
      | none => none
    else none
  | _ => none

/-- The optional value leaf `.+` of `Body`, after its newline prefix. -/
def bodyValue (s : List Char) : Body × List Char :=
  match matchLine s with
  | some (v, r) => (⟨some v⟩, r)
  | none => (⟨none⟩, s)

/-- Parse a `Body`: the prefix leaf `\n|\n\n` (longest match), then the
optional value leaf `.+`. -/
def parseBody (s : List Char) : Option (Body × List Char) :=
  match s with
  | [] => none
  | c :: rest =>
    if c = '\n' then
      match rest with
      | c₂ :: rest₂ =>
        if c₂ = '\n' then some (bodyValue rest₂)
        else some (bodyValue rest)
      | [] => some (bodyValue rest)
    else none

/-- Parse a `Type`: the keyword leaf, the optional scope leaf, then the
literal `:` (consumed, not stored).  The scope leaf starts with `(` and
the no-scope continuation starts with `:`, so the two branches are
disjoint. -/
def parseType (s : List Char) : Option (Type' × List Char) :=
  match matchKeyword s with
  | none => none
  | some (kw, rest) =>
    match matchScope rest with
    | some (sc, rest₂) =>
      match rest₂ with
      | c :: rest₃ => if c = ':' then some (⟨kw, some sc⟩, rest₃) else none
      | [] => none
    | none =>
      match rest with
      | c :: rest₃ => if c = ':' then some (⟨kw, none⟩, rest₃) else none
      | [] => none

/-- Parse the two optional trailing blocks, in the declared field order:
`footer` is attempted first, then `body`; an optional block that fails is
abandoned without consuming input. -/
def parseTail (s : List Char) : Option Footer × Option Body × List Char :=
  match parseFooter s with
  | some (f, r) =>
    match parseBody r with
    | some (b, r₂) => (some f, some b, r₂)
    | none => (some f, none, r)
  | none =>
    match parseBody s with
    | some (b, r₂) => (none, some b, r₂)
    | none => (none, none, s)

/-- Parse a `Language`: the `Type`, exactly one whitespace character
(leaf `\s`, consumed and not stored), the description leaf `.+`, then the
optional footer and the optional body. -/
def parseLanguage (s : List Char) : Option (Language × List Char) :=
  match parseType s with
  | none => none
  | some (t, r₁) =>
    match r₁ with
    | [] => none
    | w :: r₂ =>
      if w.isWhitespace then
        match matchLine r₂ with
        | none => none
        | some (d, r₃) =>
          match parseTail r₃ with
          | (f, b, r₄) => some (⟨t, d, f, b⟩, r₄)
      else none

/-- Top-level parse: the whole input must be consumed; any unconsumed
trailing input is a parse failure. -/
def parse (s : List Char) : Option Language :=
  match parseLanguage s with
  | some (t, []) => some t
  | _ => none

/-- `grammar::parse` on a Rust string. -/
def parseString (s : String) : Option Language :=
  parse s.toList

/-- The raw scope text stored for content `c`: the span including both
parentheses. -/
def wrapParens (c : List Char) : List Char := '(' :: (c ++ [')'])

/-- The header text of an optional scope. -/
def scopeText : Option (List Char) → List Char
  | none => []
  | some c => wrapParens c

/-- A commit header: keyword, optional scope, the `:` separator, one
whitespace character, then the description. -/
def mkHeader (kw : List Char) (sc : Option (List Char)) (w : Char)
    (desc : List Char) : List Char :=
  kw ++ scopeText sc ++ ':' :: w :: desc

/-- The source text of one footer line whose separating whitespace
character was `w`. -/
def renderLine (l : FooterLine) (w : Char) : List Char :=
  l.tag ++ ':' :: w :: l.value

/-- The source text of one footer line written with the canonical
`": "` separator. -/
def renderPair (p : List Char × List Char) : List Char :=
  p.1 ++ ':' :: ' ' :: p.2

/-- Join lines with single `\n` separators. -/
def joinLines : List (List Char) → List Char
  | [] => []
  | [l] => l
  | l :: ls => l ++ '\n' :: joinLines ls

/-- Is there a colon immediately followed by a whitespace character
anywhere in the text?  (If not, the text survives unsplit as a footer
tag.) -/
def hasColonWs : List Char → Bool
  | [] => false
  | c :: rest =>
    match rest with
    | [] => false
    | c₂ :: _ => (c == ':' && c₂.isWhitespace) || hasColonWs rest

end Commit

namespace Commit

/-! ## Leaf-level lemmas -/

/-- No keyword of the alternation starts another one. -/
lemma keywords_pairwise :
    List.Pairwise
      (fun a b => a.isPrefixOf b = false ∧ b.isPrefixOf a = false) keywords := by
  decide

lemma find?_eq_of_mem (ks : List (List Char)) (k r : List Char) (hmem : k ∈ ks)
    (hpair : List.Pairwise
      (fun a b => a.isPrefixOf b = false ∧ b.isPrefixOf a = false) ks) :
    ks.find? (fun a => a.isPrefixOf (k ++ r)) = some k := by
  induction ks with
  | nil => cases hmem
  | cons k₀ tl ih =>
    rcases List.pairwise_cons.mp hpair with ⟨hhead, htl⟩
    rcases List.mem_cons.mp hmem with rfl | hmem'
    · have hp : k.isPrefixOf (k ++ r) = true := by
        rw [List.isPrefixOf_iff_prefix]
        exact List.prefix_append _ _
      exact List.find?_cons_of_pos _ hp
    · have hk : ¬((fun a => a.isPrefixOf (k ++ r)) k₀ = true) := by
        intro h
        have hpre : k₀ <+: k ++ r := List.isPrefixOf_iff_prefix.mp h
        have hk2 : k <+: k ++ r := List.prefix_append _ _
        rcases le_total k₀.length k.length with hle | hle
        · have hkk : k₀ <+: k := List.prefix_of_prefix_length_le hpre hk2 hle
          rcases hhead k hmem' with ⟨h₁, _⟩
          rw [← List.isPrefixOf_iff_prefix] at hkk
          simp [h₁] at hkk
        · have hkk : k <+: k₀ := List.prefix_of_prefix_length_le hk2 hpre hle
          rcases hhead k hmem' with ⟨_, h₂⟩
          rw [← List.isPrefixOf_iff_prefix] at hkk
          simp [h₂] at hkk
      have hkf : k₀.isPrefixOf (k ++ r) = false := by
        rw [Bool.eq_false_iff]
        exact fun hcontra => hk hcontra
      rw [List.find?]
      simp only [hkf]
      exact ih hmem' htl

/-- The keyword leaf recognizes each keyword, whatever follows it. -/
lemma matchKeyword_append (k r : List Char) (hmem : k ∈ keywords) :
    matchKeyword (k ++ r) = some (k, r) := by
  unfold matchKeyword
  rw [find?_eq_of_mem keywords k r hmem keywords_pairwise]
  simp [List.drop_left]

/-- What the keyword leaf accepts: a keyword of the alternation followed
by the returned rest. -/
lemma matchKeyword_sound {s k r : List Char} (h : matchKeyword s = some (k, r)) :
    k ∈ keywords ∧ s = k ++ r := by
  unfold matchKeyword at h
  cases hf : keywords.find? (fun a => a.isPrefixOf s) with
  | none => rw [hf] at h; cases h
  | some k' =>
    rw [hf] at h
    simp only [Option.map_some', Option.some.injEq, Prod.mk.injEq] at h
    obtain ⟨rfl, rfl⟩ := h
    refine ⟨List.mem_of_find?_eq_some hf, ?_⟩
    have hp := List.find?_some hf
    simp only [List.isPrefixOf_iff_prefix] at hp
    rcases hp with ⟨t, rfl⟩
    rw [List.drop_left]

lemma scanScopeContent_sound {s a b : List Char}
    (h : scanScopeContent s = some (a, b)) :
    s = a ++ ')' :: b ∧ ')' ∉ a ∧ '\n' ∉ a := by
  induction s generalizing a b with
  | nil => simp [scanScopeContent] at h
  | cons c rest ih =>
    rw [scanScopeContent] at h
    by_cases hc : c = ')'
    · rw [if_pos hc] at h
      simp only [Option.some.injEq, Prod.mk.injEq] at h
      obtain ⟨rfl, rfl⟩ := h
      simp [hc]
    · rw [if_neg hc] at h
      by_cases hn : c = '\n'
      · rw [if_pos hn] at h; cases h
      · rw [if_neg hn] at h
        cases hrec : scanScopeContent rest with
        | none => rw [hrec] at h; cases h
        | some p =>
          obtain ⟨a', b'⟩ := p
          rw [hrec] at h
          simp only [Option.some.injEq, Prod.mk.injEq] at h
          obtain ⟨rfl, rfl⟩ := h
          rcases ih hrec with ⟨rfl, hnp, hnn⟩
          refine ⟨rfl, ?_, ?_⟩ <;>
            simp only [List.mem_cons, not_or] <;>
            exact ⟨fun hx => by simp [hx.symm] at hc hn, by assumption⟩

lemma scanScopeContent_complete (a b : List Char) (hp : ')' ∉ a)
    (hn : '\n' ∉ a) :
    scanScopeContent (a ++ ')' :: b) = some (a, b) := by
  induction a with
  | nil => simp [scanScopeContent]
  | cons c a' ih =>
    have hc : c ≠ ')' := fun h => hp (h ▸ List.mem_cons_self _ _)
    have hcn : c ≠ '\n' := fun h => hn (h ▸ List.mem_cons_self _ _)
    have ih' := ih (fun hm => hp (List.mem_cons_of_mem _ hm))
      (fun hm => hn (List.mem_cons_of_mem _ hm))
    simp only [List.cons_append]
    rw [scanScopeContent, if_neg hc, if_neg hcn, ih']

/-- What the scope leaf accepts: a parenthesized span with non-empty,
newline-free content ending at the first closing parenthesis, stored
verbatim with its parentheses. -/
lemma matchScope_sound {s sc r : List Char} (h : matchScope s = some (sc, r)) :
    ∃ content, content ≠ [] ∧ ')' ∉ content ∧ '\n' ∉ content ∧
      sc = wrapParens content ∧ s = sc ++ r := by
  cases s with
  | nil => simp [matchScope] at h
  | cons c rest =>
    rw [matchScope] at h
    by_cases hc : c = '('
    · rw [if_pos hc] at h
      cases hscan : scanScopeContent rest with
      | none => rw [hscan] at h; cases h
      | some p =>
        obtain ⟨content, after⟩ := p
        simp only [hscan] at h
        by_cases hce : content = []
        · rw [if_pos hce] at h; cases h
        · rw [if_neg hce] at h
          simp only [Option.some.injEq, Prod.mk.injEq] at h
          obtain ⟨rfl, rfl⟩ := h
          rcases scanScopeContent_sound hscan with ⟨rfl, hnp, hnn⟩
          exact ⟨content, hce, hnp, hnn, rfl, by simp [hc, wrapParens]⟩
    · rw [if_neg hc] at h; cases h

/-- The scope leaf recognizes `"(" ++ content ++ ")"` whenever the
content is non-empty and free of `)` and newlines. -/
lemma matchScope_complete (content r : List Char) (hce : content ≠ [])
    (hp : ')' ∉ content) (hn : '\n' ∉ content) :
    matchScope (wrapParens content ++ r) = some (wrapParens content, r) := by
  have hshape : wrapParens content ++ r = '(' :: (content ++ ')' :: r) := by
    simp [wrapParens]
  rw [hshape, matchScope, if_pos rfl]
  simp only [scanScopeContent_complete content r hp hn]
  rw [if_neg hce]
  rfl

/-- The scope leaf fails when the input does not start with an opening
parenthesis. -/
lemma matchScope_none {c : Char} (rest : List Char) (h : c ≠ '(') :
    matchScope (c :: rest) = none := by
  rw [matchScope, if_neg h]

/-- What the `.+` leaf accepts: a non-empty newline-free span, matched
greedily (the rest is empty or starts with a newline). -/
lemma matchLine_sound {s d r : List Char} (h : matchLine s = some (d, r)) :
    d ≠ [] ∧ '\n' ∉ d ∧ s = d ++ r ∧ (r = [] ∨ ∃ r', r = '\n' :: r') := by
  induction s generalizing d r with
  | nil => simp [matchLine] at h
  | cons c rest ih =>
    rw [matchLine] at h
    by_cases hc : c = '\n'
    · rw [if_pos hc] at h; cases h
    · rw [if_neg hc] at h
      cases hrec : matchLine rest with
      | some p =>
        obtain ⟨d', r'⟩ := p
        rw [hrec] at h
        simp only [Option.some.injEq, Prod.mk.injEq] at h
        obtain ⟨rfl, rfl⟩ := h
        rcases ih hrec with ⟨hne, hnn, rfl, hr⟩
        refine ⟨by simp, ?_, rfl, hr⟩
        simp only [List.mem_cons, not_or]
        exact ⟨fun hx => hc hx.symm, hnn⟩
      | none =>
        rw [hrec] at h
        simp only [Option.some.injEq, Prod.mk.injEq] at h
        obtain ⟨rfl, rfl⟩ := h
        refine ⟨by simp, ?_, rfl, ?_⟩
        · simp only [List.mem_cons, not_or]
          exact ⟨fun hx => hc hx.symm, List.not_mem_nil _⟩
        · cases rest with
          | nil => exact Or.inl rfl
          | cons c₂ r₂ =>
            rw [matchLine] at hrec
            by_cases hc₂ : c₂ = '\n'
            · exact Or.inr ⟨r₂, by rw [hc₂]⟩
            · rw [if_neg hc₂] at hrec
              cases h2 : matchLine r₂ with
              | some p => rw [h2] at hrec; cases hrec
              | none => rw [h2] at hrec; cases hrec

/-- The `.+` leaf recognizes any non-empty newline-free span ending at
the end of the input or at a newline. -/
lemma matchLine_complete (d r : List Char) (hne : d ≠ []) (hnn : '\n' ∉ d)
    (hr : r = [] ∨ ∃ r', r = '\n' :: r') :
    matchLine (d ++ r) = some (d, r) := by
  induction d with
  | nil => cases hne rfl
  | cons c d' ih =>
    have hc : c ≠ '\n' := fun h => hnn (h ▸ List.mem_cons_self _ _)
    simp only [List.cons_append]
    rw [matchLine, if_neg hc]
    cases hd' : d' with
    | nil =>
      have hnone : matchLine r = none := by
        rcases hr with rfl | ⟨r', rfl⟩
        · rfl
        · rw [matchLine, if_pos rfl]
      simp [hnone]
    | cons c₂ d₂ =>
      have ihs := ih (by rw [hd']; simp)
        (fun hm => hnn (List.mem_cons_of_mem _ hm))
      rw [hd'] at ihs
      simp only [List.cons_append] at ihs ⊢
      rw [ihs]

end Commit

namespace Commit

/-! ## Footer-line lemmas -/

/-- What the footer-line split accepts: the line decomposes as the tag,
a colon, one whitespace character and the value. -/
lemma splitTagValue_cons (c c₂ : Char) (rest₂ : List Char) :
    splitTagValue (c :: c₂ :: rest₂) =
      if c = ':' ∧ c₂.isWhitespace then some ([], rest₂)
      else
        match splitTagValue (c₂ :: rest₂) with
        | none => none
        | some (t, v) => some (c :: t, v) := rfl

lemma splitTagValue_nil : splitTagValue [] = none := rfl

lemma splitTagValue_one (c : Char) : splitTagValue [c] = none := rfl

lemma splitTagValue_sound {line t v : List Char}
    (h : splitTagValue line = some (t, v)) :
    ∃ w, w.isWhitespace = true ∧ line = t ++ ':' :: w :: v := by
  induction line generalizing t v with
  | nil => rw [splitTagValue_nil] at h; cases h
  | cons c rest ih =>
    cases rest with
    | nil => rw [splitTagValue_one] at h; cases h
    | cons c₂ rest₂ =>
      rw [splitTagValue_cons] at h
      by_cases hcw : c = ':' ∧ c₂.isWhitespace
      · rw [if_pos hcw] at h
        simp only [Option.some.injEq, Prod.mk.injEq] at h
        obtain ⟨rfl, rfl⟩ := h
        exact ⟨c₂, by simpa using hcw.2, by simp [hcw.1]⟩
      · rw [if_neg hcw] at h
        cases hrec : splitTagValue (c₂ :: rest₂) with
        | none => rw [hrec] at h; cases h
        | some p =>
          obtain ⟨t', v'⟩ := p
          rw [hrec] at h
          simp only [Option.some.injEq, Prod.mk.injEq] at h
          obtain ⟨rfl, rfl⟩ := h
          rcases ih hrec with ⟨w, hw, heq⟩
          exact ⟨w, hw, by simp [heq]⟩

lemma hasColonWs_cons (c c₂ : Char) (rest : List Char) :
    hasColonWs (c :: c₂ :: rest) =
      ((c == ':' && c₂.isWhitespace) || hasColonWs (c₂ :: rest)) := rfl

/-- The footer-line split finds the colon-whitespace junction when no
earlier colon-whitespace pair occurs in the tag. -/
lemma splitTagValue_complete (t v : List Char) (w : Char)
    (hw : w.isWhitespace = true) (ht : hasColonWs t = false) :
    splitTagValue (t ++ ':' :: w :: v) = some (t, v) := by
  induction t with
  | nil =>
    rw [List.nil_append, splitTagValue_cons, if_pos ⟨rfl, hw⟩]
  | cons c t' ih =>
    cases t' with
    | nil =>
      have hns : ¬(c = ':' ∧ (':' : Char).isWhitespace) := by
        rintro ⟨-, hws⟩
        simp at hws
      rw [List.cons_append, List.nil_append, splitTagValue_cons, if_neg hns,
        splitTagValue_cons, if_pos ⟨rfl, hw⟩]
    | cons c₂ t₂ =>
      rw [hasColonWs_cons] at ht
      simp only [Bool.or_eq_false_iff] at ht
      obtain ⟨hcc, hrest⟩ := ht
      have hcw : ¬(c = ':' ∧ c₂.isWhitespace) := by
        rintro ⟨rfl, hws⟩
        simp [hws] at hcc
      simp only [List.cons_append]
      rw [splitTagValue_cons, if_neg hcw]
      have ihs := ih hrest
      simp only [List.cons_append] at ihs
      rw [ihs]

/-- What one parsed footer line accepts: its source line is the tag, a
colon, one whitespace character (not a newline) and the value; tag and
value are non-empty and newline-free; parsing stops at the end of input
or at a newline. -/
lemma parseFooterLine_sound {s : List Char} {l : FooterLine} {rest : List Char}
    (h : parseFooterLine s = some (l, rest)) :
    ∃ w, w.isWhitespace = true ∧ w ≠ '\n' ∧
      l.tag ≠ [] ∧ l.value ≠ [] ∧ '\n' ∉ l.tag ∧ '\n' ∉ l.value ∧
      s = (l.tag ++ ':' :: w :: l.value) ++ rest ∧
      (rest = [] ∨ ∃ r', rest = '\n' :: r') := by
  unfold parseFooterLine at h
  cases hml : matchLine s with
  | none => rw [hml] at h; cases h
  | some p =>
    obtain ⟨line, rest'⟩ := p
    simp only [hml] at h
    cases hsp : splitTagValue line with
    | none => rw [hsp] at h; cases h
    | some q =>
      obtain ⟨t, v⟩ := q
      simp only [hsp] at h
      by_cases hte : t = []
      · rw [if_pos hte] at h; cases h
      · rw [if_neg hte] at h
        by_cases hve : v = []
        · rw [if_pos hve] at h; cases h
        · rw [if_neg hve] at h
          simp only [Option.some.injEq, Prod.mk.injEq] at h
          obtain ⟨rfl, rfl⟩ := h
          rcases matchLine_sound hml with ⟨-, hnn, rfl, hr⟩
          rcases splitTagValue_sound hsp with ⟨w, hw, hline⟩
          rw [hline] at hnn ⊢
          refine ⟨w, hw, ?_, hte, hve, ?_, ?_, rfl, hr⟩
          · intro hwn
            exact hnn (by rw [← hwn]; simp)
          · exact fun hm => hnn (by simp [hm])
          · exact fun hm => hnn (by simp [hm])

/-- One footer line parses from its rendered text. -/
lemma parseFooterLine_complete (t v : List Char) (w : Char) (rest : List Char)
    (hw : w.isWhitespace = true) (hwn : w ≠ '\n') (ht : t ≠ []) (hv : v ≠ [])
    (htn : '\n' ∉ t) (hvn : '\n' ∉ v) (hcw : hasColonWs t = false)
    (hr : rest = [] ∨ ∃ r', rest = '\n' :: r') :
    parseFooterLine ((t ++ ':' :: w :: v) ++ rest) = some (⟨t, v⟩, rest) := by
  have hlnn : '\n' ∉ t ++ ':' :: w :: v := by
    simp only [List.mem_append, List.mem_cons, not_or]
    exact ⟨htn, by decide, fun hx => hwn hx.symm, hvn⟩
  unfold parseFooterLine
  rw [matchLine_complete (t ++ ':' :: w :: v) rest (by simp [ht]) hlnn hr]
  simp only [splitTagValue_complete t v w hw hcw]
  rw [if_neg ht, if_neg hv]

end Commit

namespace Commit

/-! ## Footer-block lemmas -/

lemma joinLines_single (x : List Char) : joinLines [x] = x := rfl

lemma joinLines_cons (x y : List Char) (ls : List (List Char)) :
    joinLines (x :: y :: ls) = x ++ '\n' :: joinLines (y :: ls) := rfl

lemma joinLines_zip_cons (l : FooterLine) (w : Char) (ls : List FooterLine)
    (ws : List Char) (hne : ls ≠ []) (hlen : ws.length = ls.length) :
    joinLines (List.zipWith renderLine (l :: ls) (w :: ws)) =
      renderLine l w ++ '\n' :: joinLines (List.zipWith renderLine ls ws) := by
  cases ls with
  | nil => cases hne rfl
  | cons l₂ ls₂ =>
    cases ws with
    | nil => simp at hlen
    | cons w₂ ws₂ => rfl

/-- What a footer-line repeat accepts: at least one line; each included
line has a non-empty newline-free tag and value; the consumed text is the
rendered lines joined by single newlines. -/
lemma footerCont_nil (recur : List Char → Option (List FooterLine × List Char))
    (l : FooterLine) : footerCont recur l [] = some ([l], []) := rfl

lemma footerCont_cons (recur : List Char → Option (List FooterLine × List Char))
    (l : FooterLine) (c : Char) (rest₂ : List Char) :
    footerCont recur l (c :: rest₂) =
      if c = '\n' then
        match recur rest₂ with
        | some (ls, r) => some (l :: ls, r)
        | none => some ([l], c :: rest₂)
      else some ([l], c :: rest₂) := rfl

/-- What a footer-line repeat accepts: at least one line; each included
line has a non-empty newline-free tag and value; the consumed text is the
rendered lines joined by single newlines. -/
lemma footerLinesFuel_sound {fuel : Nat} {s : List Char}
    {fls : List FooterLine} {r : List Char}
    (h : footerLinesFuel fuel s = some (fls, r)) :
    fls ≠ [] ∧
    (∀ l ∈ fls, l.tag ≠ [] ∧ l.value ≠ [] ∧ '\n' ∉ l.tag ∧ '\n' ∉ l.value) ∧
    ∃ ws, ws.length = fls.length ∧
      (∀ w ∈ ws, w.isWhitespace = true ∧ w ≠ '\n') ∧
      s = joinLines (List.zipWith renderLine fls ws) ++ r := by
  induction fuel generalizing s fls r with
  | zero => cases h
  | succ fuel ih =>
    rw [footerLinesFuel] at h
    cases hfl : parseFooterLine s with
    | none => rw [hfl] at h; cases h
    | some p =>
      obtain ⟨l, rest⟩ := p
      simp only [hfl] at h
      rcases parseFooterLine_sound hfl with
        ⟨w, hw, hwn, hte, hve, htn, hvn, hseq, hr⟩
      have hsingle : ∀ r', rest = r' →
          (([l] : List FooterLine) ≠ [] ∧
           (∀ l' ∈ ([l] : List FooterLine),
             l'.tag ≠ [] ∧ l'.value ≠ [] ∧ '\n' ∉ l'.tag ∧ '\n' ∉ l'.value) ∧
           ∃ ws, ws.length = ([l] : List FooterLine).length ∧
             (∀ w' ∈ ws, w'.isWhitespace = true ∧ w' ≠ '\n') ∧
             s = joinLines (List.zipWith renderLine [l] ws) ++ r') := by
        rintro r' rfl
        refine ⟨by simp, ?_, [w], by simp, ?_, ?_⟩
        · intro l' hl'
          rw [List.mem_singleton] at hl'
          subst hl'
          exact ⟨hte, hve, htn, hvn⟩
        · intro w' hw'
          rw [List.mem_singleton] at hw'
          subst hw'
          exact ⟨hw, hwn⟩
        · simpa [joinLines, renderLine] using hseq
      cases rest with
      | nil =>
        rw [footerCont_nil] at h
        simp only [Option.some.injEq, Prod.mk.injEq] at h
        obtain ⟨rfl, rfl⟩ := h
        exact hsingle [] rfl
      | cons c rest₂ =>
        rw [footerCont_cons] at h
        by_cases hc : c = '\n'
        · rw [if_pos hc] at h
          cases hrec : footerLinesFuel fuel rest₂ with
          | some q =>
            obtain ⟨ls, r'⟩ := q
            simp only [hrec] at h
            simp only [Option.some.injEq, Prod.mk.injEq] at h
            obtain ⟨rfl, rfl⟩ := h
            rcases ih hrec with ⟨hlsne, hprops, ws, hlen, hws, hseq₂⟩
            refine ⟨by simp, ?_, w :: ws, by simp [hlen], ?_, ?_⟩
            · intro l' hl'
              rcases List.mem_cons.mp hl' with rfl | hmem
              · exact ⟨hte, hve, htn, hvn⟩
              · exact hprops l' hmem
            · intro w' hw'
              rcases List.mem_cons.mp hw' with rfl | hmem
              · exact ⟨hw, hwn⟩
              · exact hws w' hmem
            · rw [joinLines_zip_cons l w ls ws hlsne hlen, hseq, hc, hseq₂]
              simp [renderLine]
          | none =>
            simp only [hrec] at h
            simp only [Option.some.injEq, Prod.mk.injEq] at h
            obtain ⟨rfl, rfl⟩ := h
            exact hsingle _ rfl
        · rw [if_neg hc] at h
          simp only [Option.some.injEq, Prod.mk.injEq] at h
          obtain ⟨rfl, rfl⟩ := h
          exact hsingle _ rfl

/-- A block of well-formed `tag: value` lines joined by single newlines
is consumed entirely, producing one `FooterLine` per input line. -/
lemma footerLinesFuel_complete (fuel : Nat)
    (ps : List (List Char × List Char)) (hne : ps ≠ [])
    (hgood : ∀ p ∈ ps, p.1 ≠ [] ∧ p.2 ≠ [] ∧ '\n' ∉ p.1 ∧ '\n' ∉ p.2 ∧
      hasColonWs p.1 = false)
    (hfuel : (joinLines (ps.map renderPair)).length < fuel) :
    footerLinesFuel fuel (joinLines (ps.map renderPair)) =
      some (ps.map (fun p => ⟨p.1, p.2⟩), []) := by
  induction ps generalizing fuel with
  | nil => cases hne rfl
  | cons p ps' ih =>
    obtain ⟨t, v⟩ := p
    obtain ⟨ht, hv, htn, hvn, hcw⟩ := hgood _ (List.mem_cons_self _ _)
    cases fuel with
    | zero => exact absurd hfuel (Nat.not_lt_zero _)
    | succ fuel =>
      rw [footerLinesFuel]
      cases ps' with
      | nil =>
        have hpl : parseFooterLine (renderPair (t, v)) = some (⟨t, v⟩, []) := by
          have hc := parseFooterLine_complete t v ' ' [] (by decide)
            (by decide) ht hv htn hvn hcw (Or.inl rfl)
          simpa [renderPair] using hc
        simp only [List.map_cons, List.map_nil, joinLines_single, hpl]
        rw [footerCont_nil]
      | cons q ps₂ =>
        have hjoin :
            joinLines (((t, v) :: q :: ps₂).map renderPair) =
              renderPair (t, v) ++
                '\n' :: joinLines ((q :: ps₂).map renderPair) := rfl
        have hpl :
            parseFooterLine (renderPair (t, v) ++
                '\n' :: joinLines ((q :: ps₂).map renderPair)) =
              some (⟨t, v⟩, '\n' :: joinLines ((q :: ps₂).map renderPair)) := by
          have hc := parseFooterLine_complete t v ' '
            ('\n' :: joinLines ((q :: ps₂).map renderPair)) (by decide)
            (by decide) ht hv htn hvn hcw (Or.inr ⟨_, rfl⟩)
          simpa [renderPair] using hc
        have hfuel' : (joinLines ((q :: ps₂).map renderPair)).length < fuel := by
          rw [hjoin] at hfuel
          simp only [List.length_append, List.length_cons] at hfuel
          omega
        have hrec := ih fuel (by simp)
          (fun p hp => hgood p (List.mem_cons_of_mem _ hp)) hfuel'
        rw [hjoin]
        simp only [hpl]
        rw [footerCont_cons, if_pos rfl, hrec]
        rfl

end Commit

namespace Commit

/-! ## Footer, body and type lemmas -/

lemma parseFooter_cons (c₁ c₂ : Char) (rest : List Char) :
    parseFooter (c₁ :: c₂ :: rest) =
      if c₁ = '\n' ∧ c₂ = '\n' then
        match footerLinesFuel (rest.length + 1) rest with
        | some (ls, r) => some (⟨ls⟩, r)
        | none => none
      else none := rfl

/-- The footer block parses from a rendered block of well-formed
`tag: value` lines behind a blank line, consuming everything. -/
lemma parseFooter_complete (ps : List (List Char × List Char)) (hne : ps ≠ [])
    (hgood : ∀ p ∈ ps, p.1 ≠ [] ∧ p.2 ≠ [] ∧ '\n' ∉ p.1 ∧ '\n' ∉ p.2 ∧
      hasColonWs p.1 = false) :
    parseFooter ('\n' :: '\n' :: joinLines (ps.map renderPair)) =
      some (⟨ps.map (fun p => ⟨p.1, p.2⟩)⟩, []) := by
  rw [parseFooter_cons, if_pos ⟨rfl, rfl⟩,
    footerLinesFuel_complete _ ps hne hgood (Nat.lt_succ_self _)]

/-- What the footer block accepts: a blank line, then at least one
well-formed footer line, the lines joined by single newlines. -/
lemma parseFooter_sound {s : List Char} {f : Footer} {r : List Char}
    (h : parseFooter s = some (f, r)) :
    f.lines ≠ [] ∧
    (∀ l ∈ f.lines, l.tag ≠ [] ∧ l.value ≠ [] ∧ '\n' ∉ l.tag ∧ '\n' ∉ l.value) ∧
    ∃ ws, ws.length = f.lines.length ∧
      (∀ w ∈ ws, w.isWhitespace = true ∧ w ≠ '\n') ∧
      s = '\n' :: '\n' :: (joinLines (List.zipWith renderLine f.lines ws) ++ r) := by
  match s with
  | [] => cases h
  | [c] => cases h
  | c₁ :: c₂ :: rest =>
    rw [parseFooter_cons] at h
    by_cases hnn : c₁ = '\n' ∧ c₂ = '\n'
    · rw [if_pos hnn] at h
      cases hfl : footerLinesFuel (rest.length + 1) rest with
      | none => rw [hfl] at h; cases h
      | some p =>
        obtain ⟨ls, r'⟩ := p
        simp only [hfl] at h
        simp only [Option.some.injEq, Prod.mk.injEq] at h
        obtain ⟨rfl, rfl⟩ := h
        rcases footerLinesFuel_sound hfl with ⟨hlsne, hprops, ws, hlen, hws, hseq⟩
        exact ⟨hlsne, hprops, ws, hlen, hws, by rw [hnn.1, hnn.2, hseq]⟩
    · rw [if_neg hnn] at h; cases h

lemma parseFooter_nil : parseFooter [] = none := rfl

lemma parseFooter_one (c : Char) : parseFooter [c] = none := rfl

lemma parseFooter_not_blank {c₁ c₂ : Char} (rest : List Char)
    (h : ¬(c₁ = '\n' ∧ c₂ = '\n')) :
    parseFooter (c₁ :: c₂ :: rest) = none := by
  rw [parseFooter_cons, if_neg h]

/-- An input not starting with a newline has no footer. -/
lemma parseFooter_no_newline {s : List Char}
    (h : s = [] ∨ ∃ c rest, s = c :: rest ∧ c ≠ '\n') :
    parseFooter s = none := by
  rcases h with rfl | ⟨c, rest, rfl, hc⟩
  · rfl
  · cases rest with
    | nil => rfl
    | cons c₂ rest₂ => exact parseFooter_not_blank _ (fun hx => hc hx.1)

lemma parseBody_nil : parseBody [] = none := rfl

lemma parseBody_cons (c : Char) (rest : List Char) :
    parseBody (c :: rest) =
      if c = '\n' then
        match rest with
        | c₂ :: rest₂ =>
          if c₂ = '\n' then some (bodyValue rest₂) else some (bodyValue rest)
        | [] => some (bodyValue rest)
      else none := rfl

/-- An input not starting with a newline has no body. -/
lemma parseBody_no_newline {s : List Char}
    (h : s = [] ∨ ∃ c rest, s = c :: rest ∧ c ≠ '\n') :
    parseBody s = none := by
  rcases h with rfl | ⟨c, rest, rfl, hc⟩
  · rfl
  · rw [parseBody_cons, if_neg hc]

lemma bodyValue_some {s v r : List Char} (hml : matchLine s = some (v, r)) :
    bodyValue s = (⟨some v⟩, r) := by
  unfold bodyValue
  rw [hml]

lemma bodyValue_none {s : List Char} (hml : matchLine s = none) :
    bodyValue s = (⟨none⟩, s) := by
  unfold bodyValue
  rw [hml]

lemma parseBody_only_nl : parseBody ['\n'] = some (bodyValue []) := rfl

lemma parseBody_blank (rest : List Char) :
    parseBody ('\n' :: '\n' :: rest) = some (bodyValue rest) := rfl

lemma parseBody_single_nl {c : Char} (rest : List Char) (hc : c ≠ '\n') :
    parseBody ('\n' :: c :: rest) = some (bodyValue (c :: rest)) := by
  rw [parseBody_cons, if_pos rfl]
  show (if c = '\n' then some (bodyValue rest)
    else some (bodyValue (c :: rest))) = some (bodyValue (c :: rest))
  rw [if_neg hc]

/-- What the optional body value leaf stores: if it matched, the stored
line is non-empty and newline-free. -/
lemma bodyValue_sound {s : List Char} {b : Body} {r : List Char}
    (h : bodyValue s = (b, r)) :
    ∀ v, b.value = some v → v ≠ [] ∧ '\n' ∉ v := by
  intro v hv
  unfold bodyValue at h
  cases hml : matchLine s with
  | none =>
    rw [hml] at h
    have hb : b = ⟨none⟩ := by
      have hfst := congrArg Prod.fst h
      simpa using hfst.symm
    rw [hb] at hv
    cases hv
  | some p =>
    obtain ⟨v', r'⟩ := p
    rw [hml] at h
    have hb : b = ⟨some v'⟩ := by
      have hfst := congrArg Prod.fst h
      simpa using hfst.symm
    rw [hb] at hv
    simp only [Option.some.injEq] at hv
    subst hv
    rcases matchLine_sound hml with ⟨hne, hnn, -, -⟩
    exact ⟨hne, hnn⟩

/-- What a parsed body stores: if the optional value leaf matched, it is
a non-empty newline-free line. -/
lemma parseBody_sound {s : List Char} {b : Body} {r : List Char}
    (h : parseBody s = some (b, r)) :
    ∀ v, b.value = some v → v ≠ [] ∧ '\n' ∉ v := by
  have hbv : ∃ s₂, bodyValue s₂ = (b, r) := by
    cases s with
    | nil => rw [parseBody_nil] at h; cases h
    | cons c rest =>
      by_cases hc : c = '\n'
      · subst hc
        cases rest with
        | nil =>
          rw [parseBody_only_nl] at h
          exact ⟨[], by injection h⟩
        | cons c₂ rest₂ =>
          by_cases hc₂ : c₂ = '\n'
          · subst hc₂
            rw [parseBody_blank] at h
            exact ⟨rest₂, by injection h⟩
          · rw [parseBody_single_nl rest₂ hc₂] at h
            exact ⟨c₂ :: rest₂, by injection h⟩
      · rw [parseBody_cons, if_neg hc] at h; cases h
  obtain ⟨s₂, hb⟩ := hbv
  exact bodyValue_sound hb

end Commit

namespace Commit

/-! ## Type and Language lemmas -/

/-- The `Type` rule parses a keyword, an optional scope and the `:`
separator, storing the scope verbatim with its parentheses. -/
lemma parseType_complete (kw : List Char) (sc : Option (List Char))
    (rest : List Char) (hkw : kw ∈ keywords)
    (hsc : ∀ content ∈ sc, content ≠ [] ∧ ')' ∉ content ∧ '\n' ∉ content) :
    parseType (kw ++ scopeText sc ++ ':' :: rest) =
      some (⟨kw, sc.map wrapParens⟩, rest) := by
  unfold parseType
  rw [List.append_assoc]
  cases sc with
  | none =>
    simp only [scopeText, List.nil_append]
    simp only [matchKeyword_append kw (':' :: rest) hkw]
    rfl
  | some content =>
    obtain ⟨hce, hcp, hcn⟩ := hsc content rfl
    simp only [scopeText]
    simp only [matchKeyword_append kw (wrapParens content ++ ':' :: rest) hkw]
    simp only [matchScope_complete content (':' :: rest) hce hcp hcn]
    rfl

/-- What the `Type` rule accepts: a keyword of the alternation, the
verbatim scope span if present, then the `:` separator. -/
lemma parseType_sound {s : List Char} {t : Type'} {r : List Char}
    (h : parseType s = some (t, r)) :
    t.value ∈ keywords ∧ s = t.value ++ t.scope.getD [] ++ ':' :: r ∧
    ∀ sc ∈ t.scope, ∃ content, content ≠ [] ∧ ')' ∉ content ∧
      '\n' ∉ content ∧ sc = wrapParens content := by
  unfold parseType at h
  cases hmk : matchKeyword s with
  | none => rw [hmk] at h; cases h
  | some p =>
    obtain ⟨kw, rest⟩ := p
    simp only [hmk] at h
    obtain ⟨hkmem, rfl⟩ := matchKeyword_sound hmk
    cases hms : matchScope rest with
    | some q =>
      obtain ⟨sc, rest₂⟩ := q
      simp only [hms] at h
      cases rest₂ with
      | nil => cases h
      | cons c rest₃ =>
        simp only [] at h
        by_cases hc : c = ':'
        · rw [if_pos hc] at h
          simp only [Option.some.injEq, Prod.mk.injEq] at h
          obtain ⟨rfl, rfl⟩ := h
          rcases matchScope_sound hms with ⟨content, hce, hcp, hcn, hsceq, hrest⟩
          refine ⟨hkmem, ?_, ?_⟩
          · rw [hrest, hc]
            simp [List.append_assoc]
          · intro sc' hsc'
            rw [Option.mem_def, Option.some.injEq] at hsc'
            subst hsc'
            exact ⟨content, hce, hcp, hcn, hsceq⟩
        · rw [if_neg hc] at h; cases h
    | none =>
      simp only [hms] at h
      cases rest with
      | nil => cases h
      | cons c rest₃ =>
        simp only [] at h
        by_cases hc : c = ':'
        · rw [if_pos hc] at h
          simp only [Option.some.injEq, Prod.mk.injEq] at h
          obtain ⟨rfl, rfl⟩ := h
          refine ⟨hkmem, by rw [hc]; simp, ?_⟩
          intro sc' hsc'
          simp at hsc'
        · rw [if_neg hc] at h; cases h

/-- Reduction of the root rule on a well-formed header followed by
arbitrary trailing input: the header parses, and the trailing blocks are
handled by `parseTail`. -/
lemma parseLanguage_complete (kw : List Char) (sc : Option (List Char))
    (w : Char) (desc rest : List Char) (hkw : kw ∈ keywords)
    (hsc : ∀ content ∈ sc, content ≠ [] ∧ ')' ∉ content ∧ '\n' ∉ content)
    (hw : w.isWhitespace = true) (hdesc : desc ≠ []) (hdn : '\n' ∉ desc)
    (hrest : rest = [] ∨ ∃ r', rest = '\n' :: r') :
    parseLanguage (mkHeader kw sc w desc ++ rest) =
      some (⟨⟨kw, sc.map wrapParens⟩, desc, (parseTail rest).1,
        (parseTail rest).2.1⟩, (parseTail rest).2.2) := by
  have hshape : mkHeader kw sc w desc ++ rest =
      kw ++ scopeText sc ++ ':' :: (w :: (desc ++ rest)) := by
    simp [mkHeader, List.append_assoc]
  rw [hshape]
  unfold parseLanguage
  simp only [parseType_complete kw sc (w :: (desc ++ rest)) hkw hsc]
  simp only [hw, if_true]
  simp only [matchLine_complete desc rest hdesc hdn hrest]

/-- What the root rule accepts: keyword, optional scope, the separator,
exactly one whitespace character, a greedy description line, then the
trailing blocks handled by `parseTail`. -/
lemma parseLanguage_sound {s : List Char} {t : Language} {r : List Char}
    (h : parseLanguage s = some (t, r)) :
    t.type_.value ∈ keywords ∧
    (∀ sc ∈ t.type_.scope, ∃ content, content ≠ [] ∧ ')' ∉ content ∧
      '\n' ∉ content ∧ sc = wrapParens content) ∧
    ∃ w r₃, w.isWhitespace = true ∧
      s = t.type_.value ++ t.type_.scope.getD [] ++ ':' :: w ::
        (t.description ++ r₃) ∧
      t.description ≠ [] ∧ '\n' ∉ t.description ∧
      (r₃ = [] ∨ ∃ r', r₃ = '\n' :: r') ∧
      parseTail r₃ = (t.footer, t.body, r) := by
  unfold parseLanguage at h
  cases hpt : parseType s with
  | none => rw [hpt] at h; cases h
  | some p =>
    obtain ⟨ty, r₁⟩ := p
    simp only [hpt] at h
    cases r₁ with
    | nil => cases h
    | cons w r₂ =>
      simp only [] at h
      by_cases hw : w.isWhitespace
      · rw [if_pos hw] at h
        cases hml : matchLine r₂ with
        | none => rw [hml] at h; cases h
        | some q =>
          obtain ⟨d, r₃⟩ := q
          simp only [hml] at h
          simp only [Option.some.injEq, Prod.mk.injEq] at h
          obtain ⟨rfl, rfl⟩ := h
          rcases parseType_sound hpt with ⟨hkmem, hseq, hscprops⟩
          rcases matchLine_sound hml with ⟨hdne, hdnn, rfl, hr₃⟩
          refine ⟨hkmem, hscprops, w, r₃, hw, ?_, hdne, hdnn, hr₃, ?_⟩
          · rw [hseq]
          · rfl
      · rw [if_neg hw] at h; cases h

end Commit

namespace Commit

/-! ## Tail and top-level lemmas -/

lemma parseTail_nil : parseTail [] = (none, none, []) := rfl

/-- Without a leading newline neither trailing block matches. -/
lemma parseTail_no_newline {s : List Char}
    (h : s = [] ∨ ∃ c rest, s = c :: rest ∧ c ≠ '\n') :
    parseTail s = (none, none, s) := by
  unfold parseTail
  rw [parseFooter_no_newline h, parseBody_no_newline h]

/-- A present body in the tail was produced by the body rule. -/
lemma parseTail_body_sound {s : List Char} {fo : Option Footer}
    {bo : Option Body} {r : List Char} (h : parseTail s = (fo, bo, r)) :
    ∀ b, bo = some b → ∀ v, b.value = some v → v ≠ [] ∧ '\n' ∉ v := by
  intro b hb v hv
  unfold parseTail at h
  cases hf : parseFooter s with
  | some p =>
    obtain ⟨f, r₀⟩ := p
    simp only [hf] at h
    cases hpb : parseBody r₀ with
    | some q =>
      obtain ⟨b₀, r₂⟩ := q
      simp only [hpb] at h
      simp only [Prod.mk.injEq] at h
      obtain ⟨rfl, rfl, rfl⟩ := h
      obtain rfl : b₀ = b := by injection hb
      exact parseBody_sound hpb v hv
    | none =>
      simp only [hpb] at h
      simp only [Prod.mk.injEq] at h
      obtain ⟨rfl, rfl, rfl⟩ := h
      cases hb
  | none =>
    simp only [hf] at h
    cases hpb : parseBody s with
    | some q =>
      obtain ⟨b₀, r₂⟩ := q
      simp only [hpb] at h
      simp only [Prod.mk.injEq] at h
      obtain ⟨rfl, rfl, rfl⟩ := h
      obtain rfl : b₀ = b := by injection hb
      exact parseBody_sound hpb v hv
    | none =>
      simp only [hpb] at h
      simp only [Prod.mk.injEq] at h
      obtain ⟨rfl, rfl, rfl⟩ := h
      cases hb

/-- A present footer in the tail was produced by the footer rule. -/
lemma parseTail_footer_sound {s : List Char} {fo : Option Footer}
    {bo : Option Body} {r : List Char} (h : parseTail s = (fo, bo, r)) :
    ∀ f, fo = some f → ∃ rf, parseFooter s = some (f, rf) := by
  intro f hfo
  subst hfo
  unfold parseTail at h
  cases hpf : parseFooter s with
  | some p =>
    obtain ⟨f₀, rf⟩ := p
    simp only [hpf] at h
    have hff : f₀ = f := by
      cases hpb : parseBody rf with
      | some q =>
        obtain ⟨b₀, r₂⟩ := q
        simp only [hpb, Prod.mk.injEq] at h
        injection h.1
      | none =>
        simp only [hpb, Prod.mk.injEq] at h
        injection h.1
    subst hff
    exact ⟨rf, rfl⟩
  | none =>
    simp only [hpf] at h
    cases hpb : parseBody s with
    | some q =>
      obtain ⟨b₀, r₂⟩ := q
      simp only [hpb, Prod.mk.injEq] at h
      exact absurd h.1 (by simp)
    | none =>
      simp only [hpb, Prod.mk.injEq] at h
      exact absurd h.1 (by simp)

/-- The tail of a complete footer block consuming everything: footer
present, body absent. -/
lemma parseTail_footer_block {s : List Char} {f : Footer}
    (hf : parseFooter s = some (f, [])) :
    parseTail s = (some f, none, []) := by
  unfold parseTail
  simp only [hf]
  rfl

lemma parse_of_parseLanguage {s : List Char} {t : Language}
    (h : parseLanguage s = some (t, [])) : parse s = some t := by
  unfold parse
  rw [h]

lemma parse_trailing {s : List Char} {t : Language} {r : List Char}
    (h : parseLanguage s = some (t, r)) (hr : r ≠ []) : parse s = none := by
  unfold parse
  rw [h]
  cases r with
  | nil => cases hr rfl
  | cons c r₂ => rfl

lemma parse_none_of_parseLanguage {s : List Char}
    (h : parseLanguage s = none) : parse s = none := by
  unfold parse
  rw [h]

/-- A successful top-level parse consumed the whole input. -/
lemma parse_sound {s : List Char} {t : Language} (h : parse s = some t) :
    parseLanguage s = some (t, []) := by
  unfold parse at h
  cases hpl : parseLanguage s with
  | none => rw [hpl] at h; cases h
  | some p =>
    obtain ⟨t', r⟩ := p
    rw [hpl] at h
    cases r with
    | nil =>
      simp only [] at h
      obtain rfl : t' = t := by injection h
      rfl
    | cons c r₂ =>
      simp only [] at h
      cases h

end Commit

namespace Commit

/-! ## Tail-shape helpers -/

lemma matchLine_self {line : List Char} (hne : line ≠ []) (hnn : '\n' ∉ line) :
    matchLine line = some (line, []) := by
  have h := matchLine_complete line [] hne hnn (Or.inl rfl)
  simpa using h

/-- A line that is not `tag: value`-shaped is not a footer line. -/
lemma parseFooterLine_not_shaped {line : List Char} (hne : line ≠ [])
    (hnn : '\n' ∉ line) (h : isTagValueLine line = false) :
    parseFooterLine line = none := by
  unfold parseFooterLine
  simp only [matchLine_self hne hnn]
  unfold isTagValueLine at h
  cases hsp : splitTagValue line with
  | none => simp only [hsp]
  | some p =>
    obtain ⟨t, v⟩ := p
    rw [hsp] at h
    simp only [hsp]
    by_cases hte : t = []
    · rw [if_pos hte]
    · by_cases hve : v = []
      · rw [if_neg hte, if_pos hve]
      · exfalso
        simp [hte, hve] at h

/-- No footer line, no repeat: the footer rule fails on a blank line
followed by a non-`tag: value` line. -/
lemma footerLinesFuel_of_none {s : List Char} (fuel : Nat)
    (h : parseFooterLine s = none) : footerLinesFuel fuel s = none := by
  cases fuel with
  | zero => rfl
  | succ fuel =>
    rw [footerLinesFuel]
    simp only [h]

lemma parseFooter_unshaped_line {line : List Char} (hne : line ≠ [])
    (hnn : '
' ∉ line) (h : isTagValueLine line = false) :
    parseFooter ('
' :: '
' :: line) = none := by
  rw [parseFooter_cons, if_pos ⟨rfl, rfl⟩]
  simp only [footerLinesFuel_of_none _ (parseFooterLine_not_shaped hne hnn h)]

/-- A `tag: value`-shaped line parses as a single footer line. -/
lemma parseFooterLine_shaped {line t v : List Char} (hne : line ≠ [])
    (hnn : '
' ∉ line) (hsp : splitTagValue line = some (t, v))
    (ht : t ≠ []) (hv : v ≠ []) :
    parseFooterLine line = some (⟨t, v⟩, []) := by
  unfold parseFooterLine
  simp only [matchLine_self hne hnn, hsp]
  rw [if_neg ht, if_neg hv]

lemma footerLinesFuel_single {line : List Char} {l : FooterLine} (fuel : Nat)
    (hfuel : 0 < fuel) (hpl : parseFooterLine line = some (l, [])) :
    footerLinesFuel fuel line = some ([l], []) := by
  cases fuel with
  | zero => exact absurd hfuel (by omega)
  | succ fuel =>
    rw [footerLinesFuel]
    simp only [hpl]
    rw [footerCont_nil]

lemma parseFooter_shaped_line {line t v : List Char} (hne : line ≠ [])
    (hnn : '
' ∉ line) (hsp : splitTagValue line = some (t, v))
    (ht : t ≠ []) (hv : v ≠ []) :
    parseFooter ('
' :: '
' :: line) = some (⟨[⟨t, v⟩]⟩, []) := by
  rw [parseFooter_cons, if_pos ⟨rfl, rfl⟩]
  simp only [footerLinesFuel_single _ (Nat.succ_pos _)
    (parseFooterLine_shaped hne hnn hsp ht hv)]

/-- Blank line, then a single non-`tag: value` line: the footer rule
fails, the body rule consumes everything. -/
lemma parseTail_body_block_double {line : List Char} (hne : line ≠ [])
    (hnn : '
' ∉ line) (hsh : isTagValueLine line = false) :
    parseTail ('
' :: '
' :: line) = (none, some ⟨some line⟩, []) := by
  unfold parseTail
  simp only [parseFooter_unshaped_line hne hnn hsh]
  simp only [parseBody_blank, bodyValue_some (matchLine_self hne hnn)]

/-- A single newline, then a line of text: no footer, body consumes
everything. -/
lemma parseTail_body_block_single {line : List Char} (hne : line ≠ [])
    (hnn : '
' ∉ line) :
    parseTail ('
' :: line) = (none, some ⟨some line⟩, []) := by
  cases line with
  | nil => cases hne rfl
  | cons c rest =>
    have hc : c ≠ '
' := fun h => hnn (h ▸ List.mem_cons_self _ _)
    unfold parseTail
    simp only [parseFooter_not_blank rest
      (fun hx => hc hx.2)]
    simp only [parseBody_single_nl rest hc,
      bodyValue_some (matchLine_self hne hnn)]

/-- One well-formed header, then any trailing input whose tail result
consumes everything: the whole message parses. -/
lemma parse_mkHeader {fo : Option Footer} {bo : Option Body}
    (kw : List Char) (sc : Option (List Char)) (w : Char)
    (desc rest : List Char) (hkw : kw ∈ keywords)
    (hsc : ∀ content ∈ sc, content ≠ [] ∧ ')' ∉ content ∧ '
' ∉ content)
    (hw : w.isWhitespace = true) (hdesc : desc ≠ []) (hdn : '
' ∉ desc)
    (hrest : rest = [] ∨ ∃ r', rest = '
' :: r')
    (htail : parseTail rest = (fo, bo, [])) :
    parse (mkHeader kw sc w desc ++ rest) =
      some ⟨⟨kw, sc.map wrapParens⟩, desc, fo, bo⟩ := by
  apply parse_of_parseLanguage
  rw [parseLanguage_complete kw sc w desc rest hkw hsc hw hdesc hdn hrest,
    htail]

end Commit

namespace Commit

/-! ## Claim theorems -/

/-- C1: the input `"feat(scope): this is a commit decription"` parses
with `type.value = "feat"`, `type.scope = some "(scope)"`, the given
description, and both `body` and `footer` absent; more generally, every
valid minimal message — a keyword, an optional well-formed scope, the
`: ` separator (any single whitespace) and a one-line description —
parses with `body` and `footer` both absent. -/
theorem claim_C1 :
    parseString "feat(scope): this is a commit decription" =
      some ⟨⟨String.toList "feat", some (String.toList "(scope)")⟩,
        String.toList "this is a commit decription", none, none⟩ ∧
    ∀ kw sc w desc, kw ∈ keywords →
      (∀ content ∈ sc, content ≠ [] ∧ ')' ∉ content ∧ '\n' ∉ content) →
      w.isWhitespace = true → desc ≠ [] → '\n' ∉ desc →
      parse (mkHeader kw sc w desc) =
        some ⟨⟨kw, sc.map wrapParens⟩, desc, none, none⟩ := by
  constructor
  · decide
  · intro kw sc w desc hkw hsc hw hdesc hdn
    have h := parse_mkHeader kw sc w desc [] hkw hsc hw hdesc hdn
      (Or.inl rfl) parseTail_nil
    simpa using h

theorem claim_C1_witness :
    parse (mkHeader (String.toList "fix") none ' ' (String.toList "a")) =
      some ⟨⟨String.toList "fix", none⟩, String.toList "a", none, none⟩ :=
  claim_C1.2 (String.toList "fix") none ' ' (String.toList "a") (by decide)
    (by intro c hc; cases hc) (by decide) (by decide) (by decide)

/-- C4: a successful parse always stores one of the eleven keywords as
the type value, and that keyword starts the input; and the non-keyword
input `"foo: bar"` fails to parse. -/
theorem claim_C4 :
    (∀ s t, parse s = some t →
      t.type_.value ∈ keywords ∧ ∃ r, s = t.type_.value ++ r) ∧
    parseString "foo: bar" = none := by
  constructor
  · intro s t h
    have hl := parse_sound h
    rcases parseLanguage_sound hl with ⟨hkmem, -, w, r₃, -, hseq, -⟩
    refine ⟨hkmem, t.type_.scope.getD [] ++ ':' :: w ::
      (t.description ++ r₃), ?_⟩
    rw [hseq, List.append_assoc]
  · decide

theorem claim_C4_witness :
    String.toList "docs" ∈ keywords ∧
    ∃ r, String.toList "docs: y" = String.toList "docs" ++ r :=
  claim_C4.1 (String.toList "docs: y")
    ⟨⟨String.toList "docs", none⟩, String.toList "y", none, none⟩ (by decide)

/-- C5: in every successful parse, the header is the type part, the `:`
separator, exactly one consumed whitespace character, and then the
description, which is a non-empty line matched greedily up to (but not
including) a newline; the body value and the footer tags and values are
likewise single lines (no stored text contains a newline). -/
theorem claim_C5 :
    ∀ s t, parse s = some t →
      ∃ w r, w.isWhitespace = true ∧
        s = t.type_.value ++ t.type_.scope.getD [] ++ ':' :: w ::
          (t.description ++ r) ∧
        t.description ≠ [] ∧ '\n' ∉ t.description ∧
        (r = [] ∨ ∃ r', r = '\n' :: r') ∧
        (∀ b ∈ t.body, ∀ v ∈ b.value, v ≠ [] ∧ '\n' ∉ v) ∧
        (∀ f ∈ t.footer, ∀ l ∈ f.lines, '\n' ∉ l.tag ∧ '\n' ∉ l.value) := by
  intro s t h
  have hl := parse_sound h
  rcases parseLanguage_sound hl with
    ⟨-, -, w, r₃, hw, hseq, hdne, hdnn, hr₃, htail⟩
  refine ⟨w, r₃, hw, hseq, hdne, hdnn, hr₃, ?_, ?_⟩
  · intro b hb v hv
    exact parseTail_body_sound htail b (Option.mem_def.mp hb) v
      (Option.mem_def.mp hv)
  · intro f hf l hlmem
    obtain ⟨rf, hpf⟩ := parseTail_footer_sound htail f (Option.mem_def.mp hf)
    rcases parseFooter_sound hpf with ⟨-, hprops, -⟩
    obtain ⟨-, -, htag, hval⟩ := hprops l hlmem
    exact ⟨htag, hval⟩

theorem claim_C5_witness :
    ∃ w r, w.isWhitespace = true ∧
      String.toList "feat: a" =
        (⟨⟨String.toList "feat", none⟩, String.toList "a", none,
          none⟩ : Language).type_.value ++
        (⟨⟨String.toList "feat", none⟩, String.toList "a", none,
          none⟩ : Language).type_.scope.getD [] ++ ':' :: w ::
        ((⟨⟨String.toList "feat", none⟩, String.toList "a", none,
          none⟩ : Language).description ++ r) ∧
      (⟨⟨String.toList "feat", none⟩, String.toList "a", none,
        none⟩ : Language).description ≠ [] ∧
      '\n' ∉ (⟨⟨String.toList "feat", none⟩, String.toList "a", none,
        none⟩ : Language).description ∧
      (r = [] ∨ ∃ r', r = '\n' :: r') ∧
      (∀ b ∈ (⟨⟨String.toList "feat", none⟩, String.toList "a", none,
        none⟩ : Language).body, ∀ v ∈ b.value, v ≠ [] ∧ '\n' ∉ v) ∧
      (∀ f ∈ (⟨⟨String.toList "feat", none⟩, String.toList "a", none,
        none⟩ : Language).footer, ∀ l ∈ f.lines,
        '\n' ∉ l.tag ∧ '\n' ∉ l.value) :=
  claim_C5 (String.toList "feat: a")
    ⟨⟨String.toList "feat", none⟩, String.toList "a", none, none⟩ (by decide)

/-- C6: the scope leaf only matches a full parenthesized span with
non-empty, non-greedy (up to the first closing parenthesis) content, and
the stored scope is the raw span including both parentheses; for a header
`<type>(<scope>): <description>` the stored scope is literally
`(<scope>)`. -/
theorem claim_C6 :
    (∀ s sc r, matchScope s = some (sc, r) →
      ∃ content, content ≠ [] ∧ ')' ∉ content ∧ '\n' ∉ content ∧
        sc = '(' :: (content ++ [')']) ∧ s = sc ++ r) ∧
    ∀ kw content desc, kw ∈ keywords → content ≠ [] → ')' ∉ content →
      '\n' ∉ content → desc ≠ [] → '\n' ∉ desc →
      parse (mkHeader kw (some content) ' ' desc) =
        some ⟨⟨kw, some ('(' :: (content ++ [')']))⟩, desc, none, none⟩ := by
  constructor
  · intro s sc r h
    rcases matchScope_sound h with ⟨c, hce, hcp, hcn, hsc, hs⟩
    exact ⟨c, hce, hcp, hcn, hsc, hs⟩
  · intro kw content desc hkw hce hcp hcn hdesc hdn
    have h := parse_mkHeader kw (some content) ' ' desc [] hkw
      (by
        intro c hc
        obtain rfl : c = content := by cases hc; rfl
        exact ⟨hce, hcp, hcn⟩)
      (by decide) hdesc hdn (Or.inl rfl) parseTail_nil
    simpa [wrapParens] using h

theorem claim_C6_witness :
    parse (mkHeader (String.toList "feat") (some (String.toList "scope")) ' '
      (String.toList "x")) =
      some ⟨⟨String.toList "feat",
        some ('(' :: (String.toList "scope" ++ [')']))⟩,
        String.toList "x", none, none⟩ :=
  claim_C6.2 (String.toList "feat") (String.toList "scope")
    (String.toList "x") (by decide) (by decide) (by decide) (by decide)
    (by decide) (by decide)

end Commit

namespace Commit

/-- C3: a valid header followed by either a single newline or a blank
line (both accepted) and a single line that is not `tag: value`-shaped
parses as a `Body` whose value is exactly that line's text. -/
theorem claim_C3 :
    ∀ kw sc w desc line, kw ∈ keywords →
      (∀ content ∈ sc, content ≠ [] ∧ ')' ∉ content ∧ '\n' ∉ content) →
      w.isWhitespace = true → desc ≠ [] → '\n' ∉ desc →
      line ≠ [] → '\n' ∉ line → isTagValueLine line = false →
      parse (mkHeader kw sc w desc ++ '\n' :: line) =
        some ⟨⟨kw, sc.map wrapParens⟩, desc, none, some ⟨some line⟩⟩ ∧
      parse (mkHeader kw sc w desc ++ '\n' :: '\n' :: line) =
        some ⟨⟨kw, sc.map wrapParens⟩, desc, none, some ⟨some line⟩⟩ := by
  intro kw sc w desc line hkw hsc hw hdesc hdn hlne hlnn hsh
  constructor
  · exact parse_mkHeader kw sc w desc ('\n' :: line) hkw hsc hw hdesc hdn
      (Or.inr ⟨_, rfl⟩) (parseTail_body_block_single hlne hlnn)
  · exact parse_mkHeader kw sc w desc ('\n' :: '\n' :: line) hkw hsc hw
      hdesc hdn (Or.inr ⟨_, rfl⟩)
      (parseTail_body_block_double hlne hlnn hsh)

theorem claim_C3_witness :
    parse (mkHeader (String.toList "feat") none ' '
        (String.toList "d") ++ '\n' :: String.toList "This is a body") =
      some ⟨⟨String.toList "feat", none⟩, String.toList "d", none,
        some ⟨some (String.toList "This is a body")⟩⟩ ∧
    parse (mkHeader (String.toList "feat") none ' '
        (String.toList "d") ++ '\n' :: '\n' :: String.toList "This is a body") =
      some ⟨⟨String.toList "feat", none⟩, String.toList "d", none,
        some ⟨some (String.toList "This is a body")⟩⟩ :=
  claim_C3 (String.toList "feat") none ' ' (String.toList "d")
    (String.toList "This is a body") (by decide) (by intro c hc; cases hc)
    (by decide) (by decide) (by decide) (by decide) (by decide) (by decide)

/-- C7: in every successfully parsed tree holding a footer, the footer
follows the newline-free description after exactly two consecutive
newlines, its lines sequence is non-empty, consecutive rendered lines are
separated by single newlines, and each line was split at a colon followed
by exactly one whitespace character (so a tag such as `BREAKING CHANGE`
may contain spaces). -/
theorem claim_C7 :
    ∀ s t f, parse s = some t → t.footer = some f →
      f.lines ≠ [] ∧
      (∀ l ∈ f.lines,
        l.tag ≠ [] ∧ l.value ≠ [] ∧ '\n' ∉ l.tag ∧ '\n' ∉ l.value) ∧
      ∃ w r ws, w.isWhitespace = true ∧
        t.description ≠ [] ∧ '\n' ∉ t.description ∧
        ws.length = f.lines.length ∧
        (∀ w' ∈ ws, w'.isWhitespace = true ∧ w' ≠ '\n') ∧
        s = t.type_.value ++ t.type_.scope.getD [] ++ ':' :: w ::
          (t.description ++ '\n' :: '\n' ::
            (joinLines (List.zipWith renderLine f.lines ws) ++ r)) := by
  intro s t f h hft
  have hl := parse_sound h
  rcases parseLanguage_sound hl with
    ⟨-, -, w, r₃, hw, hseq, hdne, hdnn, -, htail⟩
  obtain ⟨rf, hpf⟩ := parseTail_footer_sound htail f hft
  rcases parseFooter_sound hpf with ⟨hlsne, hprops, ws, hlen, hws, hr₃⟩
  refine ⟨hlsne, hprops, w, rf, ws, hw, hdne, hdnn, hlen, hws, ?_⟩
  rw [hseq, hr₃]

theorem claim_C7_witness :
    (parseString "feat: d\n\nBREAKING CHANGE: X now does Y" =
      some ⟨⟨String.toList "feat", none⟩, String.toList "d",
        some ⟨[⟨String.toList "BREAKING CHANGE",
          String.toList "X now does Y"⟩]⟩, none⟩) ∧
    (([⟨String.toList "BREAKING CHANGE", String.toList "X now does Y"⟩] :
        List FooterLine) ≠ [] ∧
      (∀ l ∈ ([⟨String.toList "BREAKING CHANGE",
          String.toList "X now does Y"⟩] : List FooterLine),
        l.tag ≠ [] ∧ l.value ≠ [] ∧ '\n' ∉ l.tag ∧ '\n' ∉ l.value) ∧
      ∃ w r ws, w.isWhitespace = true ∧
        (⟨⟨String.toList "feat", none⟩, String.toList "d",
          some ⟨[⟨String.toList "BREAKING CHANGE",
            String.toList "X now does Y"⟩]⟩, none⟩ :
              Language).description ≠ [] ∧
        '\n' ∉ (⟨⟨String.toList "feat", none⟩, String.toList "d",
          some ⟨[⟨String.toList "BREAKING CHANGE",
            String.toList "X now does Y"⟩]⟩, none⟩ :
              Language).description ∧
        ws.length = ([⟨String.toList "BREAKING CHANGE",
          String.toList "X now does Y"⟩] : List FooterLine).length ∧
        (∀ w' ∈ ws, w'.isWhitespace = true ∧ w' ≠ '\n') ∧
        String.toList "feat: d\n\nBREAKING CHANGE: X now does Y" =
          (⟨⟨String.toList "feat", none⟩, String.toList "d",
            some ⟨[⟨String.toList "BREAKING CHANGE",
              String.toList "X now does Y"⟩]⟩, none⟩ :
                Language).type_.value ++
          (⟨⟨String.toList "feat", none⟩, String.toList "d",
            some ⟨[⟨String.toList "BREAKING CHANGE",
              String.toList "X now does Y"⟩]⟩, none⟩ :
                Language).type_.scope.getD [] ++ ':' :: w ::
          ((⟨⟨String.toList "feat", none⟩, String.toList "d",
            some ⟨[⟨String.toList "BREAKING CHANGE",
              String.toList "X now does Y"⟩]⟩, none⟩ :
                Language).description ++ '\n' :: '\n' ::
            (joinLines (List.zipWith renderLine
              ([⟨String.toList "BREAKING CHANGE",
                String.toList "X now does Y"⟩] : List FooterLine) ws) ++ r))) :=
  ⟨by decide,
    claim_C7 (String.toList "feat: d\n\nBREAKING CHANGE: X now does Y")
      ⟨⟨String.toList "feat", none⟩, String.toList "d",
        some ⟨[⟨String.toList "BREAKING CHANGE",
          String.toList "X now does Y"⟩]⟩, none⟩
      ⟨[⟨String.toList "BREAKING CHANGE", String.toList "X now does Y"⟩]⟩
      (by decide) rfl⟩

/-- C8: the top-level parse is a single binary outcome over the whole
input: a success is exactly a run of the grammar that consumed the entire
input, and recognized structure followed by unconsumed trailing text is a
failure, as for `"feat: a\n\n\n"`. -/
theorem claim_C8 :
    (∀ s t r, parseLanguage s = some (t, r) → r ≠ [] → parse s = none) ∧
    (∀ s t, parse s = some t → parseLanguage s = some (t, [])) ∧
    parseString "feat: a\n\n\n" = none := by
  refine ⟨?_, ?_, by decide⟩
  · intro s t r h hr
    exact parse_trailing h hr
  · intro s t h
    exact parse_sound h

theorem claim_C8_witness :
    parse (String.toList "feat: a\n\n\n") = none :=
  claim_C8.1 (String.toList "feat: a\n\n\n")
    ⟨⟨String.toList "feat", none⟩, String.toList "a", none, some ⟨none⟩⟩
    (String.toList "\n") (by decide) (by decide)

/-- C10: an empty parenthesized scope is rejected — the scope pattern
needs at least one character between the parentheses — so
`"feat(): some description"` and, generally, any input whose header
starts `<keyword>()` fail to parse. -/
theorem claim_C10 :
    parseString "feat(): some description" = none ∧
    ∀ kw rest, kw ∈ keywords → parse (kw ++ '(' :: ')' :: rest) = none := by
  constructor
  · decide
  · intro kw rest hkw
    apply parse_none_of_parseLanguage
    have hpt : parseType (kw ++ '(' :: ')' :: rest) = none := by
      unfold parseType
      simp only [matchKeyword_append kw ('(' :: ')' :: rest) hkw]
      have hsc : scanScopeContent (')' :: rest) = some ([], rest) := by
        rw [scanScopeContent, if_pos rfl]
      have hms : matchScope ('(' :: ')' :: rest) = none := by
        rw [matchScope, if_pos rfl]
        simp only [hsc]
        simp
      simp only [hms]
      rfl
    unfold parseLanguage
    simp only [hpt]

theorem claim_C10_witness :
    parse (String.toList "chore" ++ '(' :: ')' :: String.toList ": x") =
      none :=
  claim_C10.2 (String.toList "chore") (String.toList ": x") (by decide)

end Commit

namespace Commit

/-- C2 counterexample: the footer-line separator is a colon followed by
any single whitespace character, not specifically `": "`.  For
`"feat: d\n\na:\tb: c"` the grammar splits the footer line at the first
colon-whitespace occurrence `":\t"`, storing tag `"a"` and value
`"b: c"`, while splitting on the first occurrence of the literal `": "`
would store tag `"a:\tb"` and value `"c"`. -/
theorem claim_C2_counterexample :
    parseString "feat: d\n\na:\tb: c" =
      some ⟨⟨String.toList "feat", none⟩, String.toList "d",
        some ⟨[⟨String.toList "a", String.toList "b: c"⟩]⟩, none⟩ ∧
    String.toList "a" ≠ String.toList "a:\tb" := by
  constructor
  · decide
  · decide

/-- C2 (amended): a message of a valid header, a blank line and one or
more `tag: value` lines parses as a `Footer` with exactly one entry per
input line, each entry's tag and value obtained by splitting that line at
the first occurrence of a colon followed by a whitespace character (for
lines rendered with the canonical `": "` separator and tags free of
colon-whitespace pairs, that is the first `": "`), and `body` is absent;
in particular the concrete scenario input yields
`footer.lines = [{tag: "BREAKING CHANGE", value: "X now does Y"}]` and
`body = none`. -/
theorem claim_C2 :
    (∀ kw sc w desc ps, kw ∈ keywords →
      (∀ content ∈ sc, content ≠ [] ∧ ')' ∉ content ∧ '\n' ∉ content) →
      w.isWhitespace = true → desc ≠ [] → '\n' ∉ desc → ps ≠ [] →
      (∀ p ∈ ps, p.1 ≠ [] ∧ p.2 ≠ [] ∧ '\n' ∉ p.1 ∧ '\n' ∉ p.2 ∧
        hasColonWs p.1 = false) →
      parse (mkHeader kw sc w desc ++
          '\n' :: '\n' :: joinLines (ps.map renderPair)) =
        some ⟨⟨kw, sc.map wrapParens⟩, desc,
          some ⟨ps.map (fun p => ⟨p.1, p.2⟩)⟩, none⟩) ∧
    parseString
        "feat: this is a commit decription\n\nBREAKING CHANGE: X now does Y" =
      some ⟨⟨String.toList "feat", none⟩,
        String.toList "this is a commit decription",
        some ⟨[⟨String.toList "BREAKING CHANGE",
          String.toList "X now does Y"⟩]⟩, none⟩ := by
  constructor
  · intro kw sc w desc ps hkw hsc hw hdesc hdn hne hgood
    exact parse_mkHeader kw sc w desc
      ('\n' :: '\n' :: joinLines (ps.map renderPair)) hkw hsc hw hdesc hdn
      (Or.inr ⟨_, rfl⟩)
      (parseTail_footer_block (parseFooter_complete ps hne hgood))
  · decide

theorem claim_C2_witness :
    parse (mkHeader (String.toList "feat") none ' ' (String.toList "d") ++
        '\n' :: '\n' :: joinLines
          ([(String.toList "BREAKING CHANGE", String.toList "X now does Y"),
            (String.toList "Reviewed-by", String.toList "Z")].map
            renderPair)) =
      some ⟨⟨String.toList "feat", none⟩, String.toList "d",
        some ⟨[⟨String.toList "BREAKING CHANGE", String.toList "X now does Y"⟩,
          ⟨String.toList "Reviewed-by", String.toList "Z"⟩]⟩, none⟩ :=
  claim_C2.1 (String.toList "feat") none ' ' (String.toList "d")
    [(String.toList "BREAKING CHANGE", String.toList "X now does Y"),
      (String.toList "Reviewed-by", String.toList "Z")]
    (by decide) (by intro c hc; cases hc) (by decide) (by decide)
    (by decide) (by decide) (by decide)

/-- C9 counterexample: at the repository test's own input — a valid
header, a blank line and a single `tag: value` footer line — the grammar
yields a present footer and an absent body (`body = none`), not a
present-but-empty `Body`. -/
theorem claim_C9_counterexample :
    parseString
        "feat: this is a commit decription\n\nBREAKING CHANGE: `extends` key in config file is now used for extending other config files" =
      some ⟨⟨String.toList "feat", none⟩,
        String.toList "this is a commit decription",
        some ⟨[⟨String.toList "BREAKING CHANGE",
          String.toList
            "`extends` key in config file is now used for extending other config files"⟩]⟩,
        none⟩ := by
  decide

/-- C9 (amended): for every input consisting of a valid header, a blank
line and a single `tag: value`-shaped footer line, parsing succeeds with
the footer holding exactly that line and with `body = none`; a
present-but-empty `Body` (present `body` whose `value` is `none`) arises
instead when the trailing newline prefix is followed by no body text, as
for `"feat: a\n"`. -/
theorem claim_C9 :
    (∀ kw sc w desc line tg vl, kw ∈ keywords →
      (∀ content ∈ sc, content ≠ [] ∧ ')' ∉ content ∧ '\n' ∉ content) →
      w.isWhitespace = true → desc ≠ [] → '\n' ∉ desc →
      line ≠ [] → '\n' ∉ line → splitTagValue line = some (tg, vl) →
      tg ≠ [] → vl ≠ [] →
      parse (mkHeader kw sc w desc ++ '\n' :: '\n' :: line) =
        some ⟨⟨kw, sc.map wrapParens⟩, desc, some ⟨[⟨tg, vl⟩]⟩, none⟩) ∧
    parseString "feat: a\n" =
      some ⟨⟨String.toList "feat", none⟩, String.toList "a", none,
        some ⟨none⟩⟩ := by
  constructor
  · intro kw sc w desc line tg vl hkw hsc hw hdesc hdn hlne hlnn hsp htg hvl
    exact parse_mkHeader kw sc w desc ('\n' :: '\n' :: line) hkw hsc hw
      hdesc hdn (Or.inr ⟨_, rfl⟩)
      (parseTail_footer_block
        (parseFooter_shaped_line hlne hlnn hsp htg hvl))
  · decide

theorem claim_C9_witness :
    parse (mkHeader (String.toList "feat") none ' '
        (String.toList "this is a commit decription") ++
        '\n' :: '\n' :: String.toList "BREAKING CHANGE: X now does Y") =
      some ⟨⟨String.toList "feat", none⟩,
        String.toList "this is a commit decription",
        some ⟨[⟨String.toList "BREAKING CHANGE",
          String.toList "X now does Y"⟩]⟩, none⟩ :=
  claim_C9.1 (String.toList "feat") none ' '
    (String.toList "this is a commit decription")
    (String.toList "BREAKING CHANGE: X now does Y")
    (String.toList "BREAKING CHANGE") (String.toList "X now does Y")
    (by decide) (by intro c hc; cases hc) (by decide) (by decide)
    (by decide) (by decide) (by decide) (by decide) (by decide) (by decide)

end Commit
